import Mathlib

set_option maxRecDepth 2000000
set_option maxHeartbeats 4000000

/-!
Shallow embedding of the HexGlobe grid topology and layout engine
(`backend/hexglobe/models/tile.py` and `backend/hexglobe/api/tiles.py`).

The hierarchical grid-index primitives (cell validity, pentagon test,
1-ring neighbours, centroid/boundary geometry, parent stepping,
point-to-cell lookup) come from the external `h3` library, which the
specification treats as an out-of-scope collaborator.  They are modelled
by the `GridIndex` structure: the embedded code is parametric in an
arbitrary grid index, exactly as the Python code is parametric in the
behaviour of `h3`.  Cell identifiers are an arbitrary type `α` with
decidable equality (Python uses opaque strings).  Geographic coordinates
are modelled over `ℚ` so that every algorithm stays executable; the
great-circle bearing subroutine `Tile._calculate_bearing`, whose
transcendental arithmetic cannot be executable, is modelled separately
over `ℝ` (see `_calculate_bearing` below) and abstracted as the
`bearing` field of `GridIndex` inside the neighbour positioner.

Python dictionaries are modelled as insertion-ordered association lists
(`dictGet` / `dictInsert`), matching CPython semantics: an update of an
existing key keeps its position, a fresh key is appended.
-/

/-- Insertion-ordered association list lookup: first entry whose key matches
(Python `d.get(k)` / `k in d`). -/
def dictGet {κ β : Type} [DecidableEq κ] : List (κ × β) → κ → Option β
  | [], _ => none
  | (k, v) :: rest, q => if q = k then some v else dictGet rest q

/-- Insertion-ordered association list update: `d[k] = v` in Python.  An
existing key keeps its position and gets the new value, a fresh key is
appended at the end. -/
def dictInsert {κ β : Type} [DecidableEq κ] : List (κ × β) → κ → β → List (κ × β)
  | [], k, v => [(k, v)]
  | (k', v') :: rest, k, v =>
      if k = k' then (k', v) :: rest else (k', v') :: dictInsert rest k v

/-- The six clock-position labels of `Tile._get_positioned_neighbors`
(`position_names` in `tile.py`). -/
inductive Position : Type
  | bottom_middle
  | bottom_left
  | top_left
  | top_middle
  | top_right
  | bottom_right
  deriving DecidableEq

/-- The canonical clockwise order of the position labels
(`position_names` in `tile.py`, lines 271-278). -/
def position_names : List Position :=
  [Position.bottom_middle, Position.bottom_left, Position.top_left,
   Position.top_middle, Position.top_right, Position.bottom_right]

/-- Integer lattice coordinate `(row, col)`. -/
abbrev Coord : Type := Int × Int

/-- Direction→offset table used when the source coordinate's column is even
(`relative_coords_for_even_columns`, `tiles.py` lines 427-434). -/
def relative_coords_for_even_columns : Position → Coord
  | Position.bottom_middle => (-1, 0)
  | Position.bottom_left => (-1, -1)
  | Position.top_left => (0, -1)
  | Position.top_middle => (1, 0)
  | Position.top_right => (0, 1)
  | Position.bottom_right => (-1, 1)

/-- Direction→offset table used when the source coordinate's column is odd
(`relative_coords_for_odd_columns`, `tiles.py` lines 436-443). -/
def relative_coords_for_odd_columns : Position → Coord
  | Position.bottom_middle => (-1, 0)
  | Position.bottom_left => (0, -1)
  | Position.top_left => (1, -1)
  | Position.top_middle => (1, 0)
  | Position.top_right => (1, 1)
  | Position.bottom_right => (0, 1)

/-- The external grid-index collaborator (the `h3` library, §6 of the spec).
`kRing c k` is `h3.k_ring(c, k)` (all cells within `k` steps, including `c`),
`geo` is `h3.h3_to_geo` (centroid `(lat, lng)`), `boundary` is
`h3.h3_to_geo_boundary`, `geoToH3` is `h3.geo_to_h3`, `parent` is
`h3.h3_to_parent`, `resolution` is `h3.h3_get_resolution`.  The `bearing`
field abstracts the positioner's bearing subroutine
`Tile._calculate_bearing` applied to centroid/vertex pairs; its real-valued
formula is embedded separately as `_calculate_bearing`. -/
structure GridIndex (α : Type) where
  isPentagon : α → Bool
  kRing : α → Nat → List α
  geo : α → ℚ × ℚ
  boundary : α → List (ℚ × ℚ)
  bearing : ℚ × ℚ → ℚ × ℚ → ℚ
  resolution : α → Nat
  geoToH3 : ℚ → ℚ → Nat → α
  parent : α → Nat → α

/-- Python's `%` on numbers with a positive divisor: floored modulus
(`x - y * ⌊x / y⌋`). -/
def qmod (x y : ℚ) : ℚ := x - y * ⌊x / y⌋

/-- Insert an element after all entries of no larger key: one step of a
stable insertion sort. -/
def insert_sorted {β : Type} (key : β → ℚ) (x : β) : List β → List β
  | [] => [x]
  | y :: ys => if key y ≤ key x then y :: insert_sorted key x ys else x :: y :: ys

/-- Stable sort by ascending rational key, extensionally equal to Python's
stable `list.sort(key=...)` / `sorted(..., key=...)`. -/
def stable_sort_by {β : Type} (key : β → ℚ) (l : List β) : List β :=
  l.foldl (fun acc x => insert_sorted key x acc) []

/-- Stable sort of `(id, bearing)` pairs by ascending bearing
(`tile.py` line 263, `neighbor_bearings.sort(key=lambda x: x[1])`). -/
def sort_by_bearing {α : Type} (l : List (α × ℚ)) : List (α × ℚ) :=
  stable_sort_by Prod.snd l

/-- Latitude of the midpoint of boundary edge `i`
(`(boundary[i][0] + boundary[(i+1) % len(boundary)][0]) / 2`). -/
def edge_lat (b : List (ℚ × ℚ)) (i : Nat) : ℚ :=
  ((b.getD i (0, 0)).1 + (b.getD ((i + 1) % b.length) (0, 0)).1) / 2

/-- Index of the boundary edge whose midpoint latitude is closest to the
equator; ties keep the earliest index, like the strict `<` update in
`tile.py` lines 229-236. -/
def equator_edge_idx (b : List (ℚ × ℚ)) : Nat :=
  (List.range b.length).foldl
    (fun best i => if |edge_lat b i| < |edge_lat b best| then i else best) 0

/-- The 1-ring neighbours of a cell, excluding the cell itself
(`tile.py` lines 213-214). -/
def neighbors_of {α : Type} [DecidableEq α] (G : GridIndex α) (tile_id : α) : List α :=
  (G.kRing tile_id 1).filter (fun idx => idx ≠ tile_id)

/-- Assign bearing-sorted neighbours to the position names in canonical
order (`tile.py` lines 281-284: index 0 → bottom_middle, …); neighbours
beyond the sixth are dropped, missing ones leave their slots absent. -/
def assign_positions {α : Type} (sorted : List (α × ℚ)) : List (Position × Option α) :=
  (position_names.zip sorted).map (fun pr => (pr.1, some pr.2.1))

/-- For pentagons, mark the first canonical position that received no
neighbour with the `"pentagon"` placeholder (`tile.py` lines 287-291);
`none` models the placeholder string. -/
def mark_missing {α : Type} (base : List (Position × Option α)) : List (Position × Option α) :=
  match position_names.find? (fun p => decide (p ∉ base.map Prod.fst)) with
  | some p => base ++ [(p, none)]
  | none => base

/-- Bearing from the cell's centroid to the hemisphere-dependent reference
vertex (`tile.py` lines 222-250): in the northern hemisphere the vertex
immediately clockwise of the equator-facing edge's start, in the southern
hemisphere that edge's start vertex itself. -/
def reference_bearing {α : Type} (G : GridIndex α) (tile_id : α) : ℚ :=
  let center := G.geo tile_id
  let boundary := G.boundary tile_id
  let in_northern_hemisphere := decide (center.1 > 0)
  let eIdx := equator_edge_idx boundary
  let ref_vertex_idx :=
    if in_northern_hemisphere then (eIdx + 1) % boundary.length else eIdx
  G.bearing center (boundary.getD ref_vertex_idx (0, 0))

/-- Each neighbour paired with its bearing relative to the reference
direction, reduced modulo 360 (`tile.py` lines 252-260). -/
def neighbor_bearing_pairs {α : Type} [DecidableEq α]
    (G : GridIndex α) (tile_id : α) : List (α × ℚ) :=
  (neighbors_of G tile_id).map
    (fun n =>
      (n, qmod (G.bearing (G.geo tile_id) (G.geo n) - reference_bearing G tile_id) 360))

/-- Embedding of `Tile._get_positioned_neighbors` (`tile.py` lines 202-293):
fetch the 1-ring neighbours, choose the hemisphere-dependent reference
vertex next to the equator-facing boundary edge, sort neighbours by
relative bearing from the reference direction, and assign them clockwise
to the canonical position labels; a pentagon gets one placeholder slot. -/
def get_positioned_neighbors {α : Type} [DecidableEq α]
    (G : GridIndex α) (tile_id : α) : List (Position × Option α) :=
  let sorted := sort_by_bearing (neighbor_bearing_pairs G tile_id)
  let base := assign_positions sorted
  if G.isPentagon tile_id then mark_missing base else base

/-- Embedding of the `resolution_ids` computation of `Tile.__init__`
(`tile.py` lines 176-193): the entry at the cell's own resolution is the
cell itself; every other entry is `h3.geo_to_h3(lat, lng, res)` at the
cell's centroid. -/
def resolution_ids {α : Type} [DecidableEq α] (G : GridIndex α) (id : α) (res : Nat) : α :=
  if res = G.resolution id then id
  else G.geoToH3 (G.geo id).1 (G.geo id).2 res

/-- A layout conflict record: the offset-table propagation computed cell
`incoming` for a coordinate already holding a different cell `existing`
(the data of the `ERROR: trying to overwrite existing tile ...` log line,
`tiles.py` line 731). -/
structure LayoutConflict (α : Type) where
  coord : Coord
  existing : α
  incoming : α
  deriving DecidableEq

/-- Coordinate of a neighbour at clock position `pos` of the tile sitting
at `coords`, using the offset table matching the source column's parity
(`tiles.py` lines 717-725). -/
def neighbor_coord (coords : Coord) (pos : Position) : Coord :=
  let off := if coords.2 % 2 = 0 then relative_coords_for_even_columns pos
             else relative_coords_for_odd_columns pos
  (coords.1 + off.1, coords.2 + off.2)

/-- Process the positioned neighbours of the tile sitting at `coords`
(`tiles.py` lines 710-736): skip pentagon placeholders, compute each
neighbour's coordinate from the offset table matching the source column's
parity, stop with a conflict when the coordinate holds a different cell,
otherwise place the neighbour. -/
def place_neighbors {α : Type} [DecidableEq α] (coords : Coord) :
    List (Position × Option α) → List (Coord × α) →
    List (Coord × α) × Option (LayoutConflict α)
  | [], g => (g, none)
  | (_, none) :: rest, g => place_neighbors coords rest g
  | (pos, some neighbor_id) :: rest, g =>
      match dictGet g (neighbor_coord coords pos) with
      | some existing =>
          if existing ≠ neighbor_id then
            (g, some ⟨neighbor_coord coords pos, existing, neighbor_id⟩)
          else place_neighbors coords rest
            (dictInsert g (neighbor_coord coords pos) neighbor_id)
      | none => place_neighbors coords rest
          (dictInsert g (neighbor_coord coords pos) neighbor_id)

/-- One pass over a snapshot of the grid (`for coords, current_id in
list(grid_dict.items())`, `tiles.py` lines 683-744): tiles already done are
skipped, a conflict breaks out of the pass (the offending tile is not
marked done), otherwise the tile's neighbours are placed and the tile is
marked done. -/
def process_tiles {α : Type} [DecidableEq α] (G : GridIndex α) :
    List (Coord × α) → List (Coord × α) → List Coord →
    List (Coord × α) × List Coord × Bool
  | [], g, done => (g, done, false)
  | (coords, current_id) :: rest, g, done =>
      if coords ∈ done then process_tiles G rest g done
      else
        match place_neighbors coords (get_positioned_neighbors G current_id) g with
        | (g', some _) => (g', done, true)
        | (g', none) => process_tiles G rest g' (done ++ [coords])

/-- The ring budget loop (`for i in range(n_rings)`, `tiles.py` lines
680-744): each iteration takes a snapshot of the grid and runs one
`process_tiles` pass over it. -/
def process_rings {α : Type} [DecidableEq α] (G : GridIndex α) :
    Nat → List (Coord × α) → List Coord → List (Coord × α) × List Coord
  | 0, g, done => (g, done)
  | n + 1, g, done =>
      let s := process_tiles G g g done
      process_rings G n s.1 s.2.1

/-- Step 3 of the primary strategy (`tiles.py` lines 655-670): place the
immediate neighbours of the centre tile using the even-column offset
table, unconditionally. -/
def place_center_neighbors {α : Type} [DecidableEq α]
    (nbrs : List (Position × Option α)) (g : List (Coord × α)) : List (Coord × α) :=
  nbrs.foldl
    (fun g pr =>
      match pr.2 with
      | none => g
      | some neighbor_id =>
          let off := relative_coords_for_even_columns pr.1
          dictInsert g ((0 : Int) + off.1, (0 : Int) + off.2) neighbor_id)
    g

/-- Strategy selection (`tiles.py` lines 491-505): the geographic fallback
is used when the centre is a pentagon or any cell within ring radius
`max(width, height) // 2 + 1` is a pentagon. -/
def use_geographic_algorithm {α : Type} (G : GridIndex α)
    (tile_id : α) (width height : Nat) : Bool :=
  G.isPentagon tile_id ||
    (G.kRing tile_id (max width height / 2 + 1)).any (fun x => G.isPentagon x)

/-- The primary offset-table strategy (`tiles.py` lines 647-744): place the
centre's neighbours, then run `max(width, height) + 1` ring passes of the
worklist propagation, starting with only `(0, 0)` marked done. -/
def embed_primary {α : Type} [DecidableEq α] (G : GridIndex α)
    (tile_id : α) (width height : Nat) (g0 : List (Coord × α)) : List (Coord × α) :=
  let g1 := place_center_neighbors (get_positioned_neighbors G tile_id) g0
  let n_rings := max width height + 1
  (process_rings G n_rings g1 [((0 : Int), (0 : Int))]).1

/-- Smallest element of a rational list (`min(...)` over a generator in
Python; the Python call raises on an empty list, which never happens on
the reachable paths because the centre tile is in the list). -/
def qminList : List ℚ → ℚ
  | [] => 0
  | x :: xs => xs.foldl min x

/-- Largest element of a rational list (`max(...)` in Python). -/
def qmaxList : List ℚ → ℚ
  | [] => 0
  | x :: xs => xs.foldl max x

/-- Latitude band construction of the fallback strategy (`tiles.py` lines
544-581): split the latitude-sorted tiles into `num_rows` approximately
equal buckets, pad inner bucket edges by one percent of the latitude
range, and fall back to a single bucket when the range is degenerate.
Python's float literal `0.01` is modelled by the rational `1 / 100`. -/
def make_lat_buckets {α : Type} (sorted_by_lat : List (α × (ℚ × ℚ)))
    (num_rows : Nat) (min_lat max_lat : ℚ) : List (ℚ × ℚ) :=
  let total_tiles := sorted_by_lat.length
  let lat_range := max_lat - min_lat
  if lat_range > 0 ∧ num_rows > 1 then
    let tiles_per_bucket := max (total_tiles / num_rows) 1
    (List.range num_rows).foldl
      (fun acc i =>
        let start_idx := i * tiles_per_bucket
        let end_idx := if i = num_rows - 1 then total_tiles
                       else min ((i + 1) * tiles_per_bucket) total_tiles
        if start_idx ≥ end_idx then acc
        else
          let bucket_tiles := (sorted_by_lat.drop start_idx).take (end_idx - start_idx)
          let blats := bucket_tiles.map (fun e => e.2.1)
          let buffer := lat_range * (1 / 100)
          let bucket_min_lat := if i > 0 then qminList blats - buffer else qminList blats
          let bucket_max_lat := if i < num_rows - 1 then qmaxList blats + buffer
                                else qmaxList blats
          acc ++ [(bucket_min_lat, bucket_max_lat)])
      []
  else [(min_lat, max_lat)]

/-- First bucket accepting a latitude (`tiles.py` lines 584-592): a bucket
accepts latitudes in its padded range, the first bucket additionally
everything below it, the last bucket everything above it. -/
def bucket_index (buckets : List (ℚ × ℚ)) (lat : ℚ) : Option Nat :=
  (List.range buckets.length).find? (fun i =>
    let b := buckets.getD i (0, 0)
    decide (b.1 ≤ lat ∧ lat ≤ b.2) ||
      (decide (i = 0) && decide (lat < b.1)) ||
      (decide (i = buckets.length - 1) && decide (lat > b.2)))

/-- Distribute the tiles over the latitude buckets in dictionary order
(`tiles.py` lines 583-592); unassigned tiles are only logged and dropped. -/
def assign_rows {α : Type} (buckets : List (ℚ × ℚ))
    (tile_coords : List (α × (ℚ × ℚ))) : List (List (α × ℚ)) :=
  tile_coords.foldl
    (fun rows e =>
      match bucket_index buckets e.2.1 with
      | some i => rows.set i (rows.getD i [] ++ [(e.1, e.2.2)])
      | none => rows)
    (List.replicate buckets.length [])

/-- Locate the centre tile in the banded rows (`tiles.py` lines 607-620):
first row containing it, first column within that row. -/
def find_center_pos {α : Type} [DecidableEq α]
    (rows : List (List (α × ℚ))) (tile_id : α) : Option (Nat × Nat) :=
  (List.range rows.length).findSome? (fun r =>
    ((rows.getD r []).findIdx? (fun e => e.1 = tile_id)).map (fun c => (r, c)))

/-- Write the banded rows into the grid, re-based so the centre lands at
`(0, 0)` (`tiles.py` lines 634-640). -/
def place_rows {α : Type} [DecidableEq α] (rows : List (List (α × ℚ)))
    (center_row_idx center_col_idx : Nat) (g : List (Coord × α)) : List (Coord × α) :=
  rows.enum.foldl
    (fun g rr =>
      rr.2.enum.foldl
        (fun g ce =>
          dictInsert g
            ((rr.1 : Int) - (center_row_idx : Int), (ce.1 : Int) - (center_col_idx : Int))
            ce.2.1)
        g)
    g

/-- The geographic fallback strategy (`tiles.py` lines 507-646): bucket the
covering ring by latitude, sort each band by longitude, re-base on the
centre tile (defaulting to the middle row when it is not found), and
force-correct the `(0, 0)` entry when the banding misplaced the centre.
Returns `none` where Python raises `KeyError` (`tile_coords[tile_id]` with
the centre missing from its own ring), which surfaces as an HTTP 500 with
no grid. -/
def embed_geographic {α : Type} [DecidableEq α] (G : GridIndex α)
    (tile_id : α) (width height : Nat) (g0 : List (Coord × α)) :
    Option (List (Coord × α)) :=
  let k_ring_size := max width height / 2 + 1
  let k_ring := G.kRing tile_id k_ring_size
  let tile_coords := k_ring.foldl (fun d x => dictInsert d x (G.geo x)) []
  match dictGet tile_coords tile_id with
  | none => none
  | some _ =>
      let sorted_by_lat := stable_sort_by (fun e => e.2.1) tile_coords
      let total_tiles := sorted_by_lat.length
      let ideal_rows := max (Nat.sqrt total_tiles) 1
      let num_rows := min ideal_rows (height * 2)
      let lats := sorted_by_lat.map (fun e => e.2.1)
      let min_lat := qminList lats
      let max_lat := qmaxList lats
      let lat_buckets := make_lat_buckets sorted_by_lat num_rows min_lat max_lat
      let rows := (assign_rows lat_buckets tile_coords).map (stable_sort_by (fun e => e.2))
      let cpos := match find_center_pos rows tile_id with
                  | some rc => rc
                  | none => (rows.length / 2, 0)
      let g := place_rows rows cpos.1 cpos.2 g0
      some (if some tile_id ≠ dictGet g ((0 : Int), (0 : Int))
            then dictInsert g ((0 : Int), (0 : Int)) tile_id else g)

/-- The embedding returned by the `/{tile_id}/grid` endpoint: the sparse
coordinate→cell map, the pentagon-occupied coordinates, and the populated
bounds (`tiles.py` lines 746-782). -/
structure GridResult (α : Type) where
  grid : List (Coord × α)
  pentagon_positions : List Coord
  min_row : Int
  max_row : Int
  min_col : Int
  max_col : Int

/-- Smallest element of an integer list (`min(...)` in Python; the list of
grid keys is never empty because `(0, 0)` is populated first). -/
def intMinList : List Int → Int
  | [] => 0
  | x :: xs => xs.foldl min x

/-- Largest element of an integer list (`max(...)` in Python). -/
def intMaxList : List Int → Int
  | [] => 0
  | x :: xs => xs.foldl max x

/-- Assemble the response from the final grid (`tiles.py` lines 746-781):
pentagon positions are the coordinates holding pentagonal cells, the
bounds are the min/max row/column actually populated. -/
def build_result {α : Type} (G : GridIndex α) (g : List (Coord × α)) : GridResult α :=
  { grid := g
    pentagon_positions := (g.filter (fun kv => G.isPentagon kv.2)).map Prod.fst
    min_row := intMinList (g.map (fun kv => kv.1.1))
    max_row := intMaxList (g.map (fun kv => kv.1.1))
    min_col := intMinList (g.map (fun kv => kv.1.2))
    max_col := intMaxList (g.map (fun kv => kv.1.2)) }

/-- Embedding of `get_tile_grid` (`tiles.py` lines 393-811): place the
centre at `(0, 0)`, pick the strategy, run it, and assemble the result.
`none` models the request failing with an exception instead of returning
a grid. -/
def get_tile_grid {α : Type} [DecidableEq α] (G : GridIndex α)
    (tile_id : α) (width height : Nat) : Option (GridResult α) :=
  let g0 : List (Coord × α) := dictInsert [] ((0 : Int), (0 : Int)) tile_id
  if use_geographic_algorithm G tile_id width height then
    (embed_geographic G tile_id width height g0).map (build_result G)
  else
    some (build_result G (embed_primary G tile_id width height g0))

/-- Real-valued floored modulus with positive divisor: the semantics of
Python's `%` on the normalisation line `(bearing + 360) % 360`. -/
noncomputable def rmod (x y : ℝ) : ℝ := x - y * ⌊x / y⌋

/-- Two-argument arctangent `math.atan2(y, x)`, as the argument of the
complex number `x + y·i` (range `(-π, π]`, `atan2 0 0 = 0`). -/
noncomputable def atan2 (y x : ℝ) : ℝ := Complex.arg ⟨x, y⟩

/-- Embedding of `Tile._calculate_bearing` (`tile.py` lines 295-314) over
the reals: convert to radians, take the great-circle initial-bearing
`atan2`, convert to degrees, and normalise into `[0, 360)`. -/
noncomputable def _calculate_bearing (lat1 lng1 lat2 lng2 : ℝ) : ℝ :=
  let rlat1 := lat1 * Real.pi / 180
  let rlng1 := lng1 * Real.pi / 180
  let rlat2 := lat2 * Real.pi / 180
  let rlng2 := lng2 * Real.pi / 180
  let y := Real.sin (rlng2 - rlng1) * Real.cos rlat2
  let x := Real.cos rlat1 * Real.sin rlat2 -
    Real.sin rlat1 * Real.cos rlat2 * Real.cos (rlng2 - rlng1)
  rmod (atan2 y x * 180 / Real.pi + 360) 360

/-- Cells reachable from `c` in at most `n` positioned-neighbour steps: the
cells that the worklist propagation can possibly have placed after `n`
expansion layers. -/
def neighbor_values {α : Type} [DecidableEq α] (G : GridIndex α) (c : α) : List α :=
  (get_positioned_neighbors G c).filterMap Prod.snd

/-- Iterated positioned-neighbour closure of the centre cell, cut off after
`n` steps. -/
def reach_from {α : Type} [DecidableEq α] (G : GridIndex α) (c : α) : Nat → List α
  | 0 => [c]
  | n + 1 => reach_from G c n ++ (reach_from G c n).flatMap (neighbor_values G)

/-! ### Concrete grid-index models

The theorems below are quantified over an arbitrary `GridIndex`; these
concrete instances serve as evaluation points for witnesses and
counterexamples.  `latticeNbrs`/`latticeBearing` build a geometry-free
flat hexagonal lattice whose cells are named by their own offset
coordinates: `kRing c 1` lists the six lattice neighbours, centroids are
the coordinates themselves, and the bearing function hands the positioner
exactly the clockwise codes that make it label each neighbour with the
canonical position matching the offset tables, so propagation is
everywhere self-consistent. -/

/-- The six offset-coordinate neighbours of a lattice cell, listed in
canonical clockwise order for its column parity. -/
def latticeNbrs (c : Coord) : List Coord :=
  if c.2 % 2 = 0 then
    [(c.1 - 1, c.2), (c.1 - 1, c.2 - 1), (c.1, c.2 - 1),
     (c.1 + 1, c.2), (c.1, c.2 + 1), (c.1 - 1, c.2 + 1)]
  else
    [(c.1 - 1, c.2), (c.1, c.2 - 1), (c.1 + 1, c.2 - 1),
     (c.1 + 1, c.2), (c.1 + 1, c.2 + 1), (c.1, c.2 + 1)]

/-- Bearing model for the flat lattice: the reference vertex (latitude
1000) gets bearing 0, and each lattice neighbour gets the clockwise code
of its canonical position, so sorting by relative bearing reproduces the
canonical order. -/
def latticeBearing (p q : ℚ × ℚ) : ℚ :=
  if q.1 = 1000 then 0
  else
    let dr := q.1 - p.1
    let dc := q.2 - p.2
    if p.2.num % 2 = 0 then
      if dr = -1 ∧ dc = 0 then 10
      else if dr = -1 ∧ dc = -1 then 20
      else if dr = 0 ∧ dc = -1 then 30
      else if dr = 1 ∧ dc = 0 then 40
      else if dr = 0 ∧ dc = 1 then 50
      else if dr = -1 ∧ dc = 1 then 60
      else 70
    else
      if dr = -1 ∧ dc = 0 then 10
      else if dr = 0 ∧ dc = -1 then 20
      else if dr = 1 ∧ dc = -1 then 30
      else if dr = 1 ∧ dc = 0 then 40
      else if dr = 1 ∧ dc = 1 then 50
      else if dr = 0 ∧ dc = 1 then 60
      else 70

/-- Pentagon-free flat lattice grid index. -/
def L00 : GridIndex Coord :=
  { isPentagon := fun _ => false
    kRing := fun c k => if k = 1 then c :: latticeNbrs c else [c]
    geo := fun c => ((c.1 : ℚ), (c.2 : ℚ))
    boundary := fun _ => [(1000, 1000)]
    bearing := latticeBearing
    resolution := fun _ => 9
    geoToH3 := fun _ _ _ => (0, 0)
    parent := fun _ _ => (0, 0) }

/-- Flat lattice with a single pentagon at offset coordinate `(2, 0)`:
two neighbour steps from the origin, hence outside the pentagon check
radius `max(1, 1) // 2 + 1 = 1` of a 1×1 request but inside the
propagation reach. -/
def Lpent : GridIndex Coord :=
  { L00 with isPentagon := fun c => c = (2, 0) }

/-- Degenerate grid index over `Nat` whose cells have no neighbours at
all; the smallest evaluation point for the embedder. -/
def T0 : GridIndex Nat :=
  { isPentagon := fun _ => false
    kRing := fun c _ => [c]
    geo := fun _ => (0, 0)
    boundary := fun _ => []
    bearing := fun _ _ => 0
    resolution := fun _ => 0
    geoToH3 := fun _ _ _ => 0
    parent := fun _ _ => 0 }

/-- Hexagon cell `0` with the six neighbours `1..6`, whose bearings are
their own longitudes. -/
def Ghex : GridIndex Nat :=
  { isPentagon := fun _ => false
    kRing := fun c k => if c = 0 ∧ k = 1 then [0, 1, 2, 3, 4, 5, 6] else [c]
    geo := fun n => (0, (n : ℚ))
    boundary := fun _ => []
    bearing := fun _ q => q.2
    resolution := fun _ => 0
    geoToH3 := fun _ _ _ => 0
    parent := fun _ _ => 0 }

/-- Pentagon cell `0` with the five neighbours `1..5`, whose bearings are
their own longitudes. -/
def Gpent : GridIndex Nat :=
  { isPentagon := fun c => c = 0
    kRing := fun c k => if c = 0 ∧ k = 1 then [0, 1, 2, 3, 4, 5] else [c]
    geo := fun n => (0, (n : ℚ))
    boundary := fun _ => []
    bearing := fun _ q => q.2
    resolution := fun _ => 0
    geoToH3 := fun _ _ _ => 0
    parent := fun _ _ => 0 }

/-- Grid index over `Nat` on which the resolution ladder of cell `1`
(resolution 1, centroid `(0, 0)`) is not a parent walk: the point-to-cell
lookup at resolution 0 yields cell `2`, while the hierarchical parent of
cell `1` at resolution 0 is cell `3`.  The index is self-consistent where
the interface of §6 demands it: `geoToH3` at the cell's own resolution
returns the cell itself. -/
def Gladder : GridIndex Nat :=
  { isPentagon := fun _ => false
    kRing := fun c _ => [c]
    geo := fun _ => (0, 0)
    boundary := fun _ => []
    bearing := fun _ _ => 0
    resolution := fun c => if c = 1 then 1 else 0
    geoToH3 := fun _ _ r => if r = 1 then 1 else 2
    parent := fun _ _ => 3 }

/-- Grid index over `Nat` whose point-to-cell lookup and parent stepping
cohere along the centroid of cell `5` (resolution 2): `geoToH3 _ _ r` is
`5` at resolution 2 and `r` otherwise, and `parent` reproduces exactly
that chain. -/
def Gcoh : GridIndex Nat :=
  { isPentagon := fun _ => false
    kRing := fun c _ => [c]
    geo := fun _ => (0, 0)
    boundary := fun _ => []
    bearing := fun _ _ => 0
    resolution := fun c => if c = 5 then 2 else 0
    geoToH3 := fun _ _ r => if r = 2 then 5 else r
    parent := fun _ r => if r = 2 then 5 else r }

/-! ### Numeric lemmas -/

/-- Floored modulus by 360 always lands in `[0, 360)`. -/
theorem rmod_mem_Ico (x : ℝ) : rmod x 360 ∈ Set.Ico (0 : ℝ) 360 := by
  have h : rmod x 360 = 360 * Int.fract (x / 360) := by
    unfold rmod Int.fract
    have h360 : (360 : ℝ) ≠ 0 := by norm_num
    field_simp
  constructor
  · rw [h]
    have := Int.fract_nonneg (x / 360)
    positivity
  · rw [h]
    have hlt := Int.fract_lt_one (x / 360)
    nlinarith [Int.fract_nonneg (x / 360)]

/-! ### Association-list lemmas -/

theorem dictGet_insert_self {κ β : Type} [DecidableEq κ] (d : List (κ × β)) (k : κ) (v : β) :
    dictGet (dictInsert d k v) k = some v := by
  induction d with
  | nil => simp [dictInsert, dictGet]
  | cons hd tl ih =>
      obtain ⟨k', v'⟩ := hd
      by_cases h : k = k'
      · subst h; simp [dictInsert, dictGet]
      · simp [dictInsert, dictGet, h, ih]

theorem dictGet_insert_ne {κ β : Type} [DecidableEq κ] (d : List (κ × β)) (k : κ) (v : β)
    (q : κ) (h : q ≠ k) : dictGet (dictInsert d k v) q = dictGet d q := by
  induction d with
  | nil => simp [dictInsert, dictGet, h]
  | cons hd tl ih =>
      obtain ⟨k', v'⟩ := hd
      by_cases hk : k = k'
      · subst hk; simp [dictInsert, dictGet, h]
      · simp [dictInsert, dictGet, hk, ih]

theorem dictGet_insert_isSome {κ β : Type} [DecidableEq κ] (d : List (κ × β)) (k : κ) (v : β)
    (q : κ) (h : (dictGet d q).isSome) : (dictGet (dictInsert d k v) q).isSome := by
  by_cases hq : q = k
  · subst hq; simp [dictGet_insert_self]
  · rwa [dictGet_insert_ne _ _ _ _ hq]

theorem mem_keys_of_dictGet_some {κ β : Type} [DecidableEq κ] {d : List (κ × β)} {q : κ}
    {v : β} (h : dictGet d q = some v) : q ∈ d.map Prod.fst := by
  induction d with
  | nil => simp [dictGet] at h
  | cons hd tl ih =>
      obtain ⟨k', v'⟩ := hd
      by_cases hq : q = k'
      · subst hq; simp
      · simp [dictGet, hq] at h
        simp [ih h]

theorem dictInsert_cons_eq {κ β : Type} [DecidableEq κ] (tl : List (κ × β)) {k k' : κ}
    (v v' : β) (h : k = k') : dictInsert ((k', v') :: tl) k v = (k', v) :: tl := by
  simp [dictInsert, h]

theorem dictInsert_cons_ne {κ β : Type} [DecidableEq κ] (tl : List (κ × β)) {k k' : κ}
    (v v' : β) (h : k ≠ k') :
    dictInsert ((k', v') :: tl) k v = (k', v') :: dictInsert tl k v := by
  simp [dictInsert, h]

theorem values_dictInsert_subset {κ β : Type} [DecidableEq κ] (d : List (κ × β)) (k : κ)
    (v : β) : ∀ x ∈ (dictInsert d k v).map Prod.snd, x ∈ d.map Prod.snd ∨ x = v := by
  induction d with
  | nil =>
      intro x hx
      simp [dictInsert] at hx
      exact Or.inr hx
  | cons hd tl ih =>
      obtain ⟨k', v'⟩ := hd
      intro x hx
      by_cases hk : k = k'
      · rw [dictInsert_cons_eq tl v v' hk, List.map_cons] at hx
        rcases List.mem_cons.mp hx with h | h
        · exact Or.inr h
        · exact Or.inl (List.mem_cons.mpr (Or.inr h))
      · rw [dictInsert_cons_ne tl v v' hk, List.map_cons] at hx
        rcases List.mem_cons.mp hx with h | h
        · exact Or.inl (List.mem_cons.mpr (Or.inl h))
        · rcases ih x h with h' | h'
          · exact Or.inl (List.mem_cons.mpr (Or.inr h'))
          · exact Or.inr h'

theorem keys_dictInsert_subset {κ β : Type} [DecidableEq κ] (d : List (κ × β)) (k : κ)
    (v : β) : ∀ x ∈ (dictInsert d k v).map Prod.fst, x ∈ d.map Prod.fst ∨ x = k := by
  induction d with
  | nil =>
      intro x hx
      simp [dictInsert] at hx
      exact Or.inr hx
  | cons hd tl ih =>
      obtain ⟨k', v'⟩ := hd
      intro x hx
      by_cases hk : k = k'
      · rw [dictInsert_cons_eq tl v v' hk, List.map_cons] at hx
        rcases List.mem_cons.mp hx with h | h
        · exact Or.inl (List.mem_cons.mpr (Or.inl h))
        · exact Or.inl (List.mem_cons.mpr (Or.inr h))
      · rw [dictInsert_cons_ne tl v v' hk, List.map_cons] at hx
        rcases List.mem_cons.mp hx with h | h
        · exact Or.inl (List.mem_cons.mpr (Or.inl h))
        · rcases ih x h with h' | h'
          · exact Or.inl (List.mem_cons.mpr (Or.inr h'))
          · exact Or.inr h'

theorem nodup_keys_dictInsert {κ β : Type} [DecidableEq κ] (d : List (κ × β)) (k : κ) (v : β)
    (h : (d.map Prod.fst).Nodup) : ((dictInsert d k v).map Prod.fst).Nodup := by
  induction d with
  | nil => simp [dictInsert]
  | cons hd tl ih =>
      obtain ⟨k', v'⟩ := hd
      rw [List.map_cons, List.nodup_cons] at h
      by_cases hk : k = k'
      · rw [dictInsert_cons_eq tl v v' hk, List.map_cons, List.nodup_cons]
        exact h
      · rw [dictInsert_cons_ne tl v v' hk, List.map_cons, List.nodup_cons]
        refine ⟨fun hx => ?_, ih h.2⟩
        rcases keys_dictInsert_subset tl k v k' hx with h' | h'
        · exact h.1 h'
        · exact hk h'.symm

/-! ### Stable-sort and position-assignment lemmas -/

theorem insert_sorted_perm {β : Type} (key : β → ℚ) (x : β) (l : List β) :
    (insert_sorted key x l).Perm (x :: l) := by
  induction l with
  | nil => simp [insert_sorted]
  | cons y ys ih =>
      by_cases h : key y ≤ key x
      · rw [insert_sorted, if_pos h]
        exact (ih.cons y).trans (List.Perm.swap x y ys)
      · rw [insert_sorted, if_neg h]

theorem stable_sort_by_perm {β : Type} (key : β → ℚ) (l : List β) :
    (stable_sort_by key l).Perm l := by
  suffices h : ∀ acc : List β,
      (l.foldl (fun acc x => insert_sorted key x acc) acc).Perm (acc ++ l) by
    simpa [stable_sort_by] using h []
  induction l with
  | nil => intro acc; simp
  | cons x xs ih =>
      intro acc
      rw [List.foldl_cons]
      refine (ih (insert_sorted key x acc)).trans ?_
      refine ((insert_sorted_perm key x acc).append_right xs).trans ?_
      exact List.perm_middle.symm

theorem stable_sort_by_length {β : Type} (key : β → ℚ) (l : List β) :
    (stable_sort_by key l).length = l.length :=
  (stable_sort_by_perm key l).length_eq

theorem zip_map_fst_take {γ δ : Type} :
    ∀ (l1 : List γ) (l2 : List δ), (l1.zip l2).map Prod.fst = l1.take l2.length := by
  intro l1
  induction l1 with
  | nil => intro l2; simp
  | cons a t ih =>
      intro l2
      cases l2 with
      | nil => simp
      | cons b s => simp [ih s]

theorem zip_map_snd_take {γ δ : Type} :
    ∀ (l1 : List γ) (l2 : List δ), (l1.zip l2).map Prod.snd = l2.take l1.length := by
  intro l1
  induction l1 with
  | nil => intro l2; simp
  | cons a t ih =>
      intro l2
      cases l2 with
      | nil => simp
      | cons b s => simp [ih s]

theorem assign_positions_map_fst {α : Type} (s : List (α × ℚ)) :
    (assign_positions s).map Prod.fst = position_names.take s.length := by
  unfold assign_positions
  rw [List.map_map]
  have h : (Prod.fst ∘ fun pr : Position × (α × ℚ) => (pr.1, some pr.2.1)) =
      (Prod.fst : Position × (α × ℚ) → Position) := rfl
  rw [h, zip_map_fst_take]

theorem assign_positions_filterMap {α : Type} (s : List (α × ℚ)) :
    (assign_positions s).filterMap Prod.snd = (s.take position_names.length).map Prod.fst := by
  unfold assign_positions
  have h : ∀ z : List (Position × (α × ℚ)),
      (z.map (fun pr => (pr.1, some pr.2.1))).filterMap Prod.snd =
        z.map (fun pr => pr.2.1) := by
    intro z
    induction z with
    | nil => rfl
    | cons a t ih => simp [ih]
  rw [h]
  have h2 : (fun pr : Position × (α × ℚ) => pr.2.1) =
      (Prod.fst ∘ (Prod.snd : Position × (α × ℚ) → α × ℚ)) := rfl
  rw [h2, ← List.map_map, zip_map_snd_take]

theorem assign_positions_snd_isSome {α : Type} (s : List (α × ℚ)) :
    ∀ pr ∈ assign_positions s, ∃ a, pr.2 = some a := by
  unfold assign_positions
  intro pr hpr
  rcases List.mem_map.mp hpr with ⟨q, _, rfl⟩
  exact ⟨q.2.1, rfl⟩

theorem mark_missing_of_five {α : Type} (base : List (Position × Option α))
    (h : base.map Prod.fst = position_names.take 5) :
    mark_missing base = base ++ [(Position.bottom_right, none)] := by
  have hs : position_names.find? (fun p => decide (p ∉ base.map Prod.fst)) =
      some Position.bottom_right := by
    rw [h]; decide
  unfold mark_missing
  rw [hs]

theorem get_positioned_neighbors_eq_base {α : Type} [DecidableEq α] (G : GridIndex α)
    (c : α) (hp : G.isPentagon c = false) :
    get_positioned_neighbors G c =
      assign_positions (sort_by_bearing (neighbor_bearing_pairs G c)) := by
  simp [get_positioned_neighbors, hp]

theorem get_positioned_neighbors_eq_pent {α : Type} [DecidableEq α] (G : GridIndex α)
    (c : α) (hp : G.isPentagon c = true) :
    get_positioned_neighbors G c =
      mark_missing (assign_positions (sort_by_bearing (neighbor_bearing_pairs G c))) := by
  simp [get_positioned_neighbors, hp]

theorem sorted_pairs_length {α : Type} [DecidableEq α] (G : GridIndex α) (c : α) :
    (sort_by_bearing (neighbor_bearing_pairs G c)).length = (neighbors_of G c).length := by
  unfold sort_by_bearing
  rw [stable_sort_by_length]
  simp [neighbor_bearing_pairs]

theorem sorted_pairs_map_fst_perm {α : Type} [DecidableEq α] (G : GridIndex α) (c : α) :
    ((sort_by_bearing (neighbor_bearing_pairs G c)).map Prod.fst).Perm (neighbors_of G c) := by
  have h := (stable_sort_by_perm Prod.snd (neighbor_bearing_pairs G c)).map Prod.fst
  unfold sort_by_bearing
  rw [neighbor_bearing_pairs, List.map_map] at h
  have h2 : (Prod.fst ∘ fun n : α =>
      (n, qmod (G.bearing (G.geo c) (G.geo n) - reference_bearing G c) 360)) = id := rfl
  rw [h2, List.map_id] at h
  simpa [neighbor_bearing_pairs] using h

/-- C5: for every valid non-pentagonal cell (six distinct 1-ring
neighbours), `positionedNeighbors` returns exactly six non-null entries,
one per ClockPosition in canonical order, with no duplicate cell
identifiers; for every valid pentagonal cell (five 1-ring neighbours) it
returns exactly five non-null entries and exactly one placeholder. -/
theorem positioned_neighbors_slot_counts {α : Type} [DecidableEq α]
    (G : GridIndex α) (c : α) :
    (G.isPentagon c = false →
       (neighbors_of G c).length = 6 →
       (neighbors_of G c).Nodup →
       (get_positioned_neighbors G c).map Prod.fst = position_names ∧
       ((get_positioned_neighbors G c).filterMap Prod.snd).length = 6 ∧
       ((get_positioned_neighbors G c).filterMap Prod.snd).Nodup) ∧
    (G.isPentagon c = true →
       (neighbors_of G c).length = 5 →
       (get_positioned_neighbors G c).map Prod.fst = position_names ∧
       ((get_positioned_neighbors G c).filterMap Prod.snd).length = 5 ∧
       ((get_positioned_neighbors G c).filter (fun pr => pr.2.isNone)).length = 1) := by
  constructor
  · intro hp h6 hnd
    rw [get_positioned_neighbors_eq_base G c hp]
    have hlen : (sort_by_bearing (neighbor_bearing_pairs G c)).length = 6 := by
      rw [sorted_pairs_length, h6]
    have htake : (sort_by_bearing (neighbor_bearing_pairs G c)).take position_names.length =
        sort_by_bearing (neighbor_bearing_pairs G c) :=
      List.take_of_length_le (by rw [hlen]; decide)
    refine ⟨?_, ?_, ?_⟩
    · rw [assign_positions_map_fst, hlen]; rfl
    · rw [assign_positions_filterMap, htake, List.length_map, hlen]
    · rw [assign_positions_filterMap, htake]
      exact ((sorted_pairs_map_fst_perm G c).nodup_iff).mpr hnd
  · intro hp h5
    rw [get_positioned_neighbors_eq_pent G c hp]
    have hlen : (sort_by_bearing (neighbor_bearing_pairs G c)).length = 5 := by
      rw [sorted_pairs_length, h5]
    have hfst : (assign_positions (sort_by_bearing (neighbor_bearing_pairs G c))).map
        Prod.fst = position_names.take 5 := by
      rw [assign_positions_map_fst, hlen]
    rw [mark_missing_of_five _ hfst]
    have htake : (sort_by_bearing (neighbor_bearing_pairs G c)).take position_names.length =
        sort_by_bearing (neighbor_bearing_pairs G c) :=
      List.take_of_length_le (by rw [hlen]; decide)
    refine ⟨?_, ?_, ?_⟩
    · rw [List.map_append, hfst]; rfl
    · rw [List.filterMap_append, assign_positions_filterMap, htake]
      simp [hlen]
    · rw [List.filter_append]
      have h1 : (assign_positions (sort_by_bearing (neighbor_bearing_pairs G c))).filter
          (fun pr => pr.2.isNone) = [] := by
        rw [List.filter_eq_nil_iff]
        intro pr hpr
        rcases assign_positions_snd_isSome _ pr hpr with ⟨a, ha⟩
        simp [ha]
      rw [h1]
      rfl

/-- C5 witness: the two branches evaluated on the concrete hexagon model
`Ghex` (cell 0, neighbours 1..6) and pentagon model `Gpent` (cell 0,
neighbours 1..5). -/
theorem positioned_neighbors_slot_counts_witness :
    ((get_positioned_neighbors Ghex 0).map Prod.fst = position_names ∧
     ((get_positioned_neighbors Ghex 0).filterMap Prod.snd).length = 6 ∧
     ((get_positioned_neighbors Ghex 0).filterMap Prod.snd).Nodup) ∧
    ((get_positioned_neighbors Gpent 0).map Prod.fst = position_names ∧
     ((get_positioned_neighbors Gpent 0).filterMap Prod.snd).length = 5 ∧
     ((get_positioned_neighbors Gpent 0).filter (fun pr => pr.2.isNone)).length = 1) :=
  ⟨(positioned_neighbors_slot_counts Ghex 0).1 rfl (by decide) (by decide),
   (positioned_neighbors_slot_counts Gpent 0).2 (by decide) (by decide)⟩

/-- C9: for every valid pentagonal cell (five 1-ring neighbours), the
single placeholder slot of `positionedNeighbors` is always
`bottom_right`: the five real neighbours fill `bottom_middle` through
`top_right` in sorted order, so the missing slot's identity is fixed. -/
theorem pentagon_missing_slot_is_bottom_right {α : Type} [DecidableEq α]
    (G : GridIndex α) (c : α) (hp : G.isPentagon c = true)
    (h5 : (neighbors_of G c).length = 5) :
    (Position.bottom_right, (none : Option α)) ∈ get_positioned_neighbors G c ∧
    ∀ pr ∈ get_positioned_neighbors G c, pr.2 = none →
      pr.1 = Position.bottom_right := by
  rw [get_positioned_neighbors_eq_pent G c hp]
  have hlen : (sort_by_bearing (neighbor_bearing_pairs G c)).length = 5 := by
    rw [sorted_pairs_length, h5]
  have hfst : (assign_positions (sort_by_bearing (neighbor_bearing_pairs G c))).map
      Prod.fst = position_names.take 5 := by
    rw [assign_positions_map_fst, hlen]
  rw [mark_missing_of_five _ hfst]
  constructor
  · exact List.mem_append.mpr (Or.inr (by simp))
  · intro pr hpr hnone
    rcases List.mem_append.mp hpr with h | h
    · rcases assign_positions_snd_isSome _ pr h with ⟨a, ha⟩
      rw [ha] at hnone
      cases hnone
    · simp at h
      rw [h]

/-- C9 witness: on the concrete pentagon model `Gpent`, the placeholder
sits at `bottom_right` and nowhere else. -/
theorem pentagon_missing_slot_is_bottom_right_witness :
    (Position.bottom_right, (none : Option Nat)) ∈ get_positioned_neighbors Gpent 0 ∧
    ∀ pr ∈ get_positioned_neighbors Gpent 0, pr.2 = none →
      pr.1 = Position.bottom_right :=
  pentagon_missing_slot_is_bottom_right Gpent 0 (by decide) (by decide)

/-- C8: for all real inputs in degrees, `_calculate_bearing` equals the
standard great-circle initial bearing — `atan2(sin Δlng · cos lat2,
cos lat1 · sin lat2 − sin lat1 · cos lat2 · cos Δlng)` on the
radian-converted inputs, converted to degrees — normalised into the
half-open interval `[0, 360)`. -/
theorem calculate_bearing_formula_and_range (lat1 lng1 lat2 lng2 : ℝ) :
    _calculate_bearing lat1 lng1 lat2 lng2 =
      rmod (atan2
          (Real.sin (lng2 * Real.pi / 180 - lng1 * Real.pi / 180) *
            Real.cos (lat2 * Real.pi / 180))
          (Real.cos (lat1 * Real.pi / 180) * Real.sin (lat2 * Real.pi / 180) -
            Real.sin (lat1 * Real.pi / 180) * Real.cos (lat2 * Real.pi / 180) *
              Real.cos (lng2 * Real.pi / 180 - lng1 * Real.pi / 180)) *
          180 / Real.pi + 360) 360 ∧
    _calculate_bearing lat1 lng1 lat2 lng2 ∈ Set.Ico (0 : ℝ) 360 :=
  ⟨rfl, rmod_mem_Ico _⟩

/-- C2 counterexample: on the grid index `Gladder`, cell `1` has
resolution 1 and the ladder entry at resolution 0 (`geo_to_h3` at the
centroid, cell `2`) is not the parent at resolution 0 of the entry at
resolution 1 (which is cell `3`), even though the index returns the cell
itself for a point-to-cell lookup at the cell's own resolution. -/
theorem resolution_ladder_not_parent_walk :
    0 < Gladder.resolution 1 ∧
    Gladder.geoToH3 (Gladder.geo 1).1 (Gladder.geo 1).2 (Gladder.resolution 1) = 1 ∧
    resolution_ids Gladder 1 1 = 1 ∧
    resolution_ids Gladder 1 0 ≠ Gladder.parent (resolution_ids Gladder 1 1) 0 := by
  decide

/-- C2 amended: the ladder entry at every resolution other than the
cell's own is `geo_to_h3` at the cell's centroid, so the ancestor chain
is a parent walk exactly when the grid index's point-to-cell lookup and
parent stepping cohere along that centroid: under that coherence
hypothesis (and point-to-cell returning the cell at its own resolution),
the entry at resolution `r` is the parent of the entry at `r + 1` for
all `r` below the cell's resolution. -/
theorem resolution_ladder_parent_walk_of_coherent {α : Type} [DecidableEq α]
    (G : GridIndex α) (c : α)
    (hself : G.geoToH3 (G.geo c).1 (G.geo c).2 (G.resolution c) = c)
    (hcoh : ∀ r : Nat, G.parent (G.geoToH3 (G.geo c).1 (G.geo c).2 (r + 1)) r =
      G.geoToH3 (G.geo c).1 (G.geo c).2 r)
    (r : Nat) (hr : r < G.resolution c) :
    resolution_ids G c r = G.parent (resolution_ids G c (r + 1)) r := by
  have hrne : r ≠ G.resolution c := Nat.ne_of_lt hr
  unfold resolution_ids
  rw [if_neg hrne]
  by_cases h1 : r + 1 = G.resolution c
  · rw [if_pos h1]
    conv_rhs => rw [← hself, ← h1]
    exact (hcoh r).symm
  · rw [if_neg h1]
    exact (hcoh r).symm

/-- C2 amended witness: on the coherent index `Gcoh`, cell `5` has
resolution 2 and the ladder entry at resolution 1 is the parent of the
entry at resolution 2. -/
theorem resolution_ladder_parent_walk_witness :
    1 < Gcoh.resolution 5 ∧
    resolution_ids Gcoh 5 1 = Gcoh.parent (resolution_ids Gcoh 5 2) 1 :=
  ⟨by decide,
   resolution_ladder_parent_walk_of_coherent Gcoh 5 (by decide) (fun r => rfl) 1
     (by decide)⟩

/-! ### Preservation: placed entries are never reassigned -/

theorem place_neighbors_preserves {α : Type} [DecidableEq α] (coords : Coord)
    (nbrs : List (Position × Option α)) (g : List (Coord × α)) (p : Coord) (v : α)
    (h : dictGet g p = some v) :
    dictGet (place_neighbors coords nbrs g).1 p = some v := by
  induction nbrs generalizing g with
  | nil => simpa [place_neighbors] using h
  | cons hd tl ih =>
      obtain ⟨pos, ov⟩ := hd
      cases ov with
      | none => rw [place_neighbors]; exact ih g h
      | some nid =>
          rw [place_neighbors]
          cases hrc : dictGet g (neighbor_coord coords pos) with
          | none =>
              have hne : p ≠ neighbor_coord coords pos := by
                intro hp; rw [hp, hrc] at h; cases h
              exact ih _ (by rw [dictGet_insert_ne _ _ _ _ hne]; exact h)
          | some existing =>
              by_cases hne : existing ≠ nid
              · simpa [hne] using h
              · push_neg at hne
                subst hne
                simp only [ne_eq, not_true_eq_false, if_neg, ite_false]
                by_cases hp : p = neighbor_coord coords pos
                · subst hp
                  rw [hrc] at h
                  injection h with hv
                  subst hv
                  exact ih _ (dictGet_insert_self _ _ _)
                · exact ih _ (by rw [dictGet_insert_ne _ _ _ _ hp]; exact h)

theorem process_tiles_preserves {α : Type} [DecidableEq α] (G : GridIndex α)
    (snapshot : List (Coord × α)) (g : List (Coord × α)) (done : List Coord)
    (p : Coord) (v : α) (h : dictGet g p = some v) :
    dictGet (process_tiles G snapshot g done).1 p = some v := by
  induction snapshot generalizing g done with
  | nil => simpa [process_tiles] using h
  | cons hd tl ih =>
      obtain ⟨coords, current_id⟩ := hd
      rw [process_tiles]
      by_cases hdone : coords ∈ done
      · rw [if_pos hdone]; exact ih g done h
      · rw [if_neg hdone]
        cases hpl : place_neighbors coords (get_positioned_neighbors G current_id) g with
        | mk g' cf =>
            have hg' : dictGet g' p = some v := by
              have := place_neighbors_preserves coords
                (get_positioned_neighbors G current_id) g p v h
              rwa [hpl] at this
            cases cf with
            | none => exact ih g' (done ++ [coords]) hg'
            | some c0 => exact hg'

theorem process_rings_preserves {α : Type} [DecidableEq α] (G : GridIndex α)
    (n : Nat) (g : List (Coord × α)) (done : List Coord) (p : Coord) (v : α)
    (h : dictGet g p = some v) :
    dictGet (process_rings G n g done).1 p = some v := by
  induction n generalizing g done with
  | zero => simpa [process_rings] using h
  | succ m ih =>
      rw [process_rings]
      exact ih _ _ (process_tiles_preserves G g g done p v h)

theorem place_neighbors_conflict {α : Type} [DecidableEq α] (coords : Coord)
    (nbrs : List (Position × Option α)) (g g' : List (Coord × α))
    (cf : LayoutConflict α) (h : place_neighbors coords nbrs g = (g', some cf)) :
    cf.existing ≠ cf.incoming ∧ dictGet g' cf.coord = some cf.existing := by
  induction nbrs generalizing g with
  | nil => simp [place_neighbors] at h
  | cons hd tl ih =>
      obtain ⟨pos, ov⟩ := hd
      cases ov with
      | none => rw [place_neighbors] at h; exact ih g h
      | some nid =>
          rw [place_neighbors] at h
          split at h
          · rename_i existing heq
            split at h
            · rename_i hne
              injection h with h1 h2
              injection h2 with h2
              subst h1
              subst h2
              exact ⟨hne, heq⟩
            · exact ih _ h
          · exact ih _ h

/-- C6: during a single embedding pass, the worklist propagation never
reassigns a populated coordinate to a different cell — every entry
present in the grid survives all remaining ring passes unchanged — and
whenever a candidate neighbour's computed coordinate is already occupied
by a different cell, the pass stops with a conflict record whose
coordinate still holds the original cell. -/
theorem no_overwrite_in_propagation {α : Type} [DecidableEq α] (G : GridIndex α) :
    (∀ (n : Nat) (g : List (Coord × α)) (done : List Coord) (p : Coord) (v : α),
        dictGet g p = some v → dictGet (process_rings G n g done).1 p = some v) ∧
    (∀ (coords : Coord) (nbrs : List (Position × Option α))
        (g g' : List (Coord × α)) (cf : LayoutConflict α),
        place_neighbors coords nbrs g = (g', some cf) →
        cf.existing ≠ cf.incoming ∧ dictGet g' cf.coord = some cf.existing) :=
  ⟨fun n g done p v h => process_rings_preserves G n g done p v h,
   fun coords nbrs g g' cf h => place_neighbors_conflict coords nbrs g g' cf h⟩

/-- C6 witness: on the degenerate index `T0` an entry survives two ring
passes, and a concrete conflicting placement returns the conflict record
with the original entry intact. -/
theorem no_overwrite_in_propagation_witness :
    dictGet (process_rings T0 2 [(((0 : Int), (0 : Int)), (5 : Nat))] []).1
      ((0 : Int), (0 : Int)) = some 5 ∧
    ((9 : Nat) ≠ (7 : Nat) ∧
      dictGet [((((-1 : Int)), ((0 : Int))), (9 : Nat))] ((-1 : Int), (0 : Int)) = some 9) :=
  ⟨(no_overwrite_in_propagation T0).1 2 _ _ _ _ (by decide),
   (no_overwrite_in_propagation T0).2 ((0 : Int), (0 : Int))
     [(Position.bottom_middle, some 7)] [((((-1 : Int)), ((0 : Int))), (9 : Nat))]
     [((((-1 : Int)), ((0 : Int))), (9 : Nat))] ⟨((-1 : Int), (0 : Int)), 9, 7⟩ (by decide)⟩

/-! ### The centre stays at the origin -/

theorem center_offset_ne_origin (p : Position) :
    ((0 : Int) + (relative_coords_for_even_columns p).1,
     (0 : Int) + (relative_coords_for_even_columns p).2) ≠ ((0 : Int), (0 : Int)) := by
  cases p <;> decide

theorem place_center_neighbors_origin {α : Type} [DecidableEq α] {c : α}
    (nbrs : List (Position × Option α)) (g : List (Coord × α))
    (h : dictGet g ((0 : Int), (0 : Int)) = some c) :
    dictGet (place_center_neighbors nbrs g) ((0 : Int), (0 : Int)) = some c := by
  induction nbrs generalizing g with
  | nil => simpa [place_center_neighbors] using h
  | cons hd tl ih =>
      obtain ⟨pos, ov⟩ := hd
      cases ov with
      | none =>
          rw [place_center_neighbors, List.foldl_cons]
          exact ih g h
      | some nid =>
          rw [place_center_neighbors, List.foldl_cons]
          refine ih _ ?_
          rw [dictGet_insert_ne _ _ _ _ (Ne.symm (center_offset_ne_origin pos))]
          exact h

theorem embed_primary_origin {α : Type} [DecidableEq α] (G : GridIndex α) (c : α)
    (w h : Nat) (g0 : List (Coord × α)) (h0 : dictGet g0 ((0 : Int), (0 : Int)) = some c) :
    dictGet (embed_primary G c w h g0) ((0 : Int), (0 : Int)) = some c := by
  unfold embed_primary
  exact process_rings_preserves G _ _ _ _ _
    (place_center_neighbors_origin (get_positioned_neighbors G c) g0 h0)

theorem embed_geographic_origin {α : Type} [DecidableEq α] (G : GridIndex α) (c : α)
    (w h : Nat) (g0 : List (Coord × α)) (res : List (Coord × α))
    (hres : embed_geographic G c w h g0 = some res) :
    dictGet res ((0 : Int), (0 : Int)) = some c := by
  unfold embed_geographic at hres
  dsimp only at hres
  split at hres
  · cases hres
  · injection hres with hres
    subst hres
    split
    · exact dictGet_insert_self _ _ _
    · rename_i hcond
      rw [not_ne_iff] at hcond
      exact hcond.symm

theorem get_tile_grid_build {α : Type} [DecidableEq α] (G : GridIndex α) (c : α)
    (w h : Nat) (res : GridResult α) (hres : get_tile_grid G c w h = some res) :
    ∃ g, res = build_result G g ∧ dictGet g ((0 : Int), (0 : Int)) = some c := by
  unfold get_tile_grid at hres
  split at hres
  · rcases Option.map_eq_some'.mp hres with ⟨g, hg, hb⟩
    exact ⟨g, hb.symm, embed_geographic_origin G c w h _ g hg⟩
  · injection hres with hres
    exact ⟨embed_primary G c w h (dictInsert [] ((0 : Int), (0 : Int)) c), hres.symm,
      embed_primary_origin G c w h _ (dictGet_insert_self _ _ _)⟩

/-- C1: for every grid index, every centre cell and all requested extents
of at least 1×1, any grid the embedder returns maps coordinate `(0, 0)`
to the centre cell — the primary strategy never overwrites it and the
geographic fallback force-corrects the entry when the banding misplaced
the centre. -/
theorem grid_center_at_origin {α : Type} [DecidableEq α] (G : GridIndex α) (c : α)
    (w h : Nat) (res : GridResult α) (_hw : 1 ≤ w) (_hh : 1 ≤ h)
    (hres : get_tile_grid G c w h = some res) :
    dictGet res.grid ((0 : Int), (0 : Int)) = some c := by
  rcases get_tile_grid_build G c w h res hres with ⟨g, rfl, hg⟩
  exact hg

/-- C1 witness: on the flat lattice `L00`, a 1×1 request around the
origin cell returns a grid whose `(0, 0)` entry is the origin cell. -/
theorem grid_center_at_origin_witness :
    ∃ res, get_tile_grid L00 ((0 : Int), (0 : Int)) 1 1 = some res ∧
      dictGet res.grid ((0 : Int), (0 : Int)) = some ((0 : Int), (0 : Int)) := by
  have hs : (get_tile_grid L00 ((0 : Int), (0 : Int)) 1 1).isSome = true := by
    with_unfolding_all rfl
  exact ⟨(get_tile_grid L00 ((0 : Int), (0 : Int)) 1 1).get hs, (Option.some_get hs).symm,
    grid_center_at_origin L00 ((0 : Int), (0 : Int)) 1 1 _ (by decide) (by decide)
      (Option.some_get hs).symm⟩

/-! ### Bounds contain the origin -/

theorem foldl_min_le_init (xs : List Int) (b : Int) : xs.foldl min b ≤ b := by
  induction xs generalizing b with
  | nil => exact le_refl b
  | cons y ys ih => exact le_trans (ih (min b y)) (min_le_left b y)

theorem foldl_min_le_mem (xs : List Int) (b : Int) (a : Int) (h : a ∈ xs) :
    xs.foldl min b ≤ a := by
  induction xs generalizing b with
  | nil => cases h
  | cons y ys ih =>
      rcases List.mem_cons.mp h with rfl | h'
      · exact le_trans (foldl_min_le_init ys (min b a)) (min_le_right b a)
      · exact ih (min b y) h'

theorem intMinList_le {l : List Int} {a : Int} (h : a ∈ l) : intMinList l ≤ a := by
  cases l with
  | nil => cases h
  | cons x xs =>
      rcases List.mem_cons.mp h with rfl | h'
      · exact foldl_min_le_init xs a
      · exact foldl_min_le_mem xs x a h'

theorem init_le_foldl_max (xs : List Int) (b : Int) : b ≤ xs.foldl max b := by
  induction xs generalizing b with
  | nil => exact le_refl b
  | cons y ys ih => exact le_trans (le_max_left b y) (ih (max b y))

theorem mem_le_foldl_max (xs : List Int) (b : Int) (a : Int) (h : a ∈ xs) :
    a ≤ xs.foldl max b := by
  induction xs generalizing b with
  | nil => cases h
  | cons y ys ih =>
      rcases List.mem_cons.mp h with rfl | h'
      · exact le_trans (le_max_right b a) (init_le_foldl_max ys (max b a))
      · exact ih (max b y) h'

theorem le_intMaxList {l : List Int} {a : Int} (h : a ∈ l) : a ≤ intMaxList l := by
  cases l with
  | nil => cases h
  | cons x xs =>
      rcases List.mem_cons.mp h with rfl | h'
      · exact init_le_foldl_max xs a
      · exact mem_le_foldl_max xs x a h'

/-- C10: every embedding result, from either strategy, reports bounds that
contain the origin — `min_row ≤ 0 ≤ max_row` and `min_col ≤ 0 ≤ max_col`
— because coordinate `(0, 0)` is populated before the bounds are taken
over the populated coordinates. -/
theorem grid_bounds_contain_origin {α : Type} [DecidableEq α] (G : GridIndex α) (c : α)
    (w h : Nat) (res : GridResult α) (hres : get_tile_grid G c w h = some res) :
    res.min_row ≤ 0 ∧ 0 ≤ res.max_row ∧ res.min_col ≤ 0 ∧ 0 ≤ res.max_col := by
  rcases get_tile_grid_build G c w h res hres with ⟨g, rfl, hg⟩
  have hmem : ((0 : Int), (0 : Int)) ∈ g.map Prod.fst := mem_keys_of_dictGet_some hg
  rcases List.mem_map.mp hmem with ⟨kv, hkv, hk⟩
  have hr : (0 : Int) ∈ g.map (fun kv => kv.1.1) :=
    List.mem_map.mpr ⟨kv, hkv, by rw [hk]⟩
  have hc : (0 : Int) ∈ g.map (fun kv => kv.1.2) :=
    List.mem_map.mpr ⟨kv, hkv, by rw [hk]⟩
  exact ⟨intMinList_le hr, le_intMaxList hr, intMinList_le hc, le_intMaxList hc⟩

/-- C10 witness: on the degenerate index `T0`, the default 5×5 request
returns bounds containing the origin. -/
theorem grid_bounds_contain_origin_witness :
    ∃ res, get_tile_grid T0 0 5 5 = some res ∧
      (res.min_row ≤ 0 ∧ 0 ≤ res.max_row ∧ res.min_col ≤ 0 ∧ 0 ≤ res.max_col) := by
  have hs : (get_tile_grid T0 0 5 5).isSome = true := by decide
  exact ⟨(get_tile_grid T0 0 5 5).get hs, (Option.some_get hs).symm,
    grid_bounds_contain_origin T0 0 5 5 _ (Option.some_get hs).symm⟩

/-! ### Propagation only places reachable cells -/

theorem reach_from_mono {α : Type} [DecidableEq α] (G : GridIndex α) (c : α) (n : Nat)
    {x : α} (h : x ∈ reach_from G c n) : x ∈ reach_from G c (n + 1) := by
  rw [reach_from]
  exact List.mem_append.mpr (Or.inl h)

theorem reach_from_step {α : Type} [DecidableEq α] (G : GridIndex α) (c : α) (n : Nat)
    {v x : α} (hv : v ∈ reach_from G c n) (hx : x ∈ neighbor_values G v) :
    x ∈ reach_from G c (n + 1) := by
  rw [reach_from]
  exact List.mem_append.mpr (Or.inr (List.mem_flatMap.mpr ⟨v, hv, hx⟩))

theorem place_neighbors_values {α : Type} [DecidableEq α] (coords : Coord)
    (nbrs : List (Position × Option α)) (g : List (Coord × α)) :
    ∀ x ∈ (place_neighbors coords nbrs g).1.map Prod.snd,
      x ∈ g.map Prod.snd ∨ x ∈ nbrs.filterMap Prod.snd := by
  induction nbrs generalizing g with
  | nil =>
      intro x hx
      left
      simpa [place_neighbors] using hx
  | cons hd tl ih =>
      obtain ⟨pos, ov⟩ := hd
      cases ov with
      | none =>
          intro x hx
          rw [place_neighbors] at hx
          rcases ih g x hx with h | h
          · exact Or.inl h
          · exact Or.inr (by simpa [List.filterMap_cons] using h)
      | some nid =>
          intro x hx
          rw [place_neighbors] at hx
          split at hx
          · rename_i existing heq
            split at hx
            · exact Or.inl hx
            · rcases ih _ x hx with h | h
              · rcases values_dictInsert_subset g (neighbor_coord coords pos) nid x h
                  with h' | h'
                · exact Or.inl h'
                · exact Or.inr (by simp [List.filterMap_cons, h'])
              · exact Or.inr (by simp [List.filterMap_cons, h])
          · rcases ih _ x hx with h | h
            · rcases values_dictInsert_subset g (neighbor_coord coords pos) nid x h
                with h' | h'
              · exact Or.inl h'
              · exact Or.inr (by simp [List.filterMap_cons, h'])
            · exact Or.inr (by simp [List.filterMap_cons, h])

theorem process_tiles_values {α : Type} [DecidableEq α] (G : GridIndex α) (T : α → Prop) :
    ∀ (snapshot g : List (Coord × α)) (done : List Coord),
      (∀ pr ∈ snapshot, ∀ x ∈ neighbor_values G pr.2, T x) →
      (∀ x ∈ g.map Prod.snd, T x) →
      ∀ x ∈ (process_tiles G snapshot g done).1.map Prod.snd, T x := by
  intro snapshot
  induction snapshot with
  | nil =>
      intro g done _ hg x hx
      exact hg x (by simpa [process_tiles] using hx)
  | cons hd tl ih =>
      intro g done hsnap hg x hx
      obtain ⟨coords, current_id⟩ := hd
      rw [process_tiles] at hx
      by_cases hdone : coords ∈ done
      · rw [if_pos hdone] at hx
        exact ih g done (fun pr hpr => hsnap pr (List.mem_cons.mpr (Or.inr hpr))) hg x hx
      · rw [if_neg hdone] at hx
        cases hpl : place_neighbors coords (get_positioned_neighbors G current_id) g with
        | mk g' cf =>
            have hg' : ∀ y ∈ g'.map Prod.snd, T y := by
              intro y hy
              have hsub := place_neighbors_values coords
                (get_positioned_neighbors G current_id) g y
              rw [hpl] at hsub
              rcases hsub hy with h | h
              · exact hg y h
              · exact hsnap (coords, current_id) (List.mem_cons_self _ _) y h
            rw [hpl] at hx
            cases cf with
            | none =>
                exact ih g' (done ++ [coords])
                  (fun pr hpr => hsnap pr (List.mem_cons.mpr (Or.inr hpr))) hg' x hx
            | some c0 => exact hg' x hx

theorem process_rings_values {α : Type} [DecidableEq α] (G : GridIndex α) (c : α) :
    ∀ (n k : Nat) (g : List (Coord × α)) (done : List Coord),
      (∀ x ∈ g.map Prod.snd, x ∈ reach_from G c k) →
      ∀ x ∈ (process_rings G n g done).1.map Prod.snd, x ∈ reach_from G c (k + n) := by
  intro n
  induction n with
  | zero =>
      intro k g done hg x hx
      exact hg x (by simpa [process_rings] using hx)
  | succ m ih =>
      intro k g done hg x hx
      rw [process_rings] at hx
      have h1 : ∀ y ∈ (process_tiles G g g done).1.map Prod.snd,
          y ∈ reach_from G c (k + 1) := by
        refine process_tiles_values G (· ∈ reach_from G c (k + 1)) g g done ?_ ?_
        · intro pr hpr y hy
          have hv : pr.2 ∈ g.map Prod.snd := List.mem_map.mpr ⟨pr, hpr, rfl⟩
          exact reach_from_step G c k (hg pr.2 hv) hy
        · intro y hy
          exact reach_from_mono G c k (hg y hy)
      have h2 := ih (k + 1) _ _ h1 x hx
      have harith : k + 1 + m = k + (m + 1) := by omega
      rwa [harith] at h2

theorem place_center_neighbors_values {α : Type} [DecidableEq α]
    (nbrs : List (Position × Option α)) (g : List (Coord × α)) :
    ∀ x ∈ (place_center_neighbors nbrs g).map Prod.snd,
      x ∈ g.map Prod.snd ∨ x ∈ nbrs.filterMap Prod.snd := by
  induction nbrs generalizing g with
  | nil =>
      intro x hx
      left
      simpa [place_center_neighbors] using hx
  | cons hd tl ih =>
      obtain ⟨pos, ov⟩ := hd
      cases ov with
      | none =>
          intro x hx
          rw [place_center_neighbors, List.foldl_cons] at hx
          rcases ih g x hx with h | h
          · exact Or.inl h
          · exact Or.inr (by simpa [List.filterMap_cons] using h)
      | some nid =>
          intro x hx
          rw [place_center_neighbors, List.foldl_cons] at hx
          rcases ih _ x hx with h | h
          · rcases values_dictInsert_subset g _ nid x h with h' | h'
            · exact Or.inl h'
            · exact Or.inr (by simp [List.filterMap_cons, h'])
          · exact Or.inr (by simp [List.filterMap_cons, h])

theorem embed_primary_values {α : Type} [DecidableEq α] (G : GridIndex α) (c : α)
    (w h : Nat) :
    ∀ x ∈ (embed_primary G c w h (dictInsert [] ((0 : Int), (0 : Int)) c)).map Prod.snd,
      x ∈ reach_from G c (max w h + 2) := by
  intro x hx
  unfold embed_primary at hx
  have h1 : ∀ y ∈ (place_center_neighbors (get_positioned_neighbors G c)
      (dictInsert [] ((0 : Int), (0 : Int)) c)).map Prod.snd,
      y ∈ reach_from G c 1 := by
    intro y hy
    rcases place_center_neighbors_values (get_positioned_neighbors G c) _ y hy with h' | h'
    · have : y = c := by simpa [dictInsert] using h'
      subst this
      exact reach_from_mono G y 0 (by simp [reach_from])
    · exact reach_from_step G c 0 (by simp [reach_from]) h'
  have h2 := process_rings_values G c (max w h + 1) 1 _ [((0 : Int), (0 : Int))] h1 x hx
  have harith : 1 + (max w h + 1) = max w h + 2 := by omega
  rwa [harith] at h2

theorem get_tile_grid_primary_eq {α : Type} [DecidableEq α] (G : GridIndex α) (c : α)
    (w h : Nat) (hprim : use_geographic_algorithm G c w h = false) :
    get_tile_grid G c w h =
      some (build_result G
        (embed_primary G c w h (dictInsert [] ((0 : Int), (0 : Int)) c))) := by
  unfold get_tile_grid
  rw [if_neg (by simp [hprim])]

theorem primary_pentagon_positions_empty {α : Type} [DecidableEq α] (G : GridIndex α)
    (c : α) (w h : Nat)
    (hreach : ∀ v ∈ reach_from G c (max w h + 2), G.isPentagon v = false) :
    (build_result G
      (embed_primary G c w h (dictInsert [] ((0 : Int), (0 : Int)) c))).pentagon_positions
      = [] := by
  show ((embed_primary G c w h (dictInsert [] ((0 : Int), (0 : Int)) c)).filter
      (fun kv => G.isPentagon kv.2)).map Prod.fst = []
  rw [List.filter_eq_nil_iff.mpr ?_, List.map_nil]
  intro kv hkv
  have hv : kv.2 ∈ (embed_primary G c w h
      (dictInsert [] ((0 : Int), (0 : Int)) c)).map Prod.snd :=
    List.mem_map.mpr ⟨kv, hkv, rfl⟩
  simp [hreach kv.2 (embed_primary_values G c w h kv.2 hv)]

/-- C3: it is not true that every embed call taking the primary strategy
returns an empty pentagon list — the pentagon check only covers ring
radius `max(width, height) // 2 + 1` while the propagation runs
`max(width, height) + 1` unbounded ring passes: on the lattice `Lpent`
with its single pentagon two steps from the origin, a 1×1 request takes
the primary strategy (no pentagon within radius 1) yet places the
pentagon, which therefore shows up in the pentagon list. -/
theorem primary_pentagon_positions_nonempty_cex :
    Lpent.isPentagon ((0 : Int), (0 : Int)) = false ∧
    use_geographic_algorithm Lpent ((0 : Int), (0 : Int)) 1 1 = false ∧
    (get_tile_grid Lpent ((0 : Int), (0 : Int)) 1 1).map (fun r => r.pentagon_positions) =
      some [((2 : Int), (0 : Int))] := by
  refine ⟨by decide, by decide, ?_⟩
  with_unfolding_all rfl

/-- C3 amended: for every embed call where the primary strategy is taken
and additionally no cell reachable from the centre within
`max(width, height) + 2` positioned-neighbour steps is a pentagon (the
propagation reach, strictly wider than the checked ring radius
`max(width, height) // 2 + 1`), the returned pentagon list is empty. -/
theorem pentagon_positions_empty_of_no_pentagon_in_reach {α : Type} [DecidableEq α]
    (G : GridIndex α) (c : α) (w h : Nat) (res : GridResult α)
    (hprim : use_geographic_algorithm G c w h = false)
    (hres : get_tile_grid G c w h = some res)
    (hreach : ∀ v ∈ reach_from G c (max w h + 2), G.isPentagon v = false) :
    res.pentagon_positions = [] := by
  rw [get_tile_grid_primary_eq G c w h hprim] at hres
  injection hres with hres
  rw [← hres]
  exact primary_pentagon_positions_empty G c w h hreach

/-- C3 amended witness: on the pentagon-free lattice `L00` a 1×1 request
takes the primary strategy and returns an empty pentagon list. -/
theorem pentagon_positions_empty_witness :
    use_geographic_algorithm L00 ((0 : Int), (0 : Int)) 1 1 = false ∧
    ∃ res, get_tile_grid L00 ((0 : Int), (0 : Int)) 1 1 = some res ∧
      res.pentagon_positions = [] := by
  have hs : (get_tile_grid L00 ((0 : Int), (0 : Int)) 1 1).isSome = true := by
    with_unfolding_all rfl
  refine ⟨by decide, (get_tile_grid L00 ((0 : Int), (0 : Int)) 1 1).get hs,
    (Option.some_get hs).symm, ?_⟩
  exact pentagon_positions_empty_of_no_pentagon_in_reach L00 ((0 : Int), (0 : Int)) 1 1 _
    (by decide) (Option.some_get hs).symm (fun v _ => rfl)

/-! ### The 3×3 scenario: at least seven populated coordinates -/

theorem process_rings_isSome {α : Type} [DecidableEq α] (G : GridIndex α) (n : Nat)
    (g : List (Coord × α)) (done : List Coord) (q : Coord)
    (h : (dictGet g q).isSome) : (dictGet (process_rings G n g done).1 q).isSome := by
  rcases Option.isSome_iff_exists.mp h with ⟨v, hv⟩
  rw [process_rings_preserves G n g done q v hv]
  rfl

theorem place_center_neighbors_isSome_mono {α : Type} [DecidableEq α]
    (nbrs : List (Position × Option α)) (g : List (Coord × α)) (q : Coord)
    (h : (dictGet g q).isSome) : (dictGet (place_center_neighbors nbrs g) q).isSome := by
  induction nbrs generalizing g with
  | nil => simpa [place_center_neighbors] using h
  | cons hd tl ih =>
      obtain ⟨pos, ov⟩ := hd
      cases ov with
      | none => rw [place_center_neighbors, List.foldl_cons]; exact ih g h
      | some nid =>
          rw [place_center_neighbors, List.foldl_cons]
          exact ih _ (dictGet_insert_isSome g _ nid q h)

theorem place_center_neighbors_present {α : Type} [DecidableEq α]
    (nbrs : List (Position × Option α)) (g : List (Coord × α)) (p : Position) (v : α)
    (hmem : (p, some v) ∈ nbrs) :
    (dictGet (place_center_neighbors nbrs g)
      ((0 : Int) + (relative_coords_for_even_columns p).1,
       (0 : Int) + (relative_coords_for_even_columns p).2)).isSome := by
  induction nbrs generalizing g with
  | nil => cases hmem
  | cons hd tl ih =>
      rcases List.mem_cons.mp hmem with heq | hmem'
      · rw [place_center_neighbors, List.foldl_cons, ← heq]
        exact place_center_neighbors_isSome_mono tl _ _
          (by rw [dictGet_insert_self]; rfl)
      · rw [place_center_neighbors, List.foldl_cons]
        obtain ⟨pos, ov⟩ := hd
        cases ov with
        | none => exact ih _ hmem'
        | some nid => exact ih _ hmem'

theorem place_neighbors_nodup_keys {α : Type} [DecidableEq α] (coords : Coord)
    (nbrs : List (Position × Option α)) (g : List (Coord × α))
    (h : (g.map Prod.fst).Nodup) :
    (((place_neighbors coords nbrs g).1.map Prod.fst)).Nodup := by
  induction nbrs generalizing g with
  | nil => simpa [place_neighbors] using h
  | cons hd tl ih =>
      obtain ⟨pos, ov⟩ := hd
      cases ov with
      | none => rw [place_neighbors]; exact ih g h
      | some nid =>
          rw [place_neighbors]
          cases hrc : dictGet g (neighbor_coord coords pos) with
          | none => exact ih _ (nodup_keys_dictInsert g _ nid h)
          | some existing =>
              by_cases hne : existing ≠ nid
              · simpa [hne] using h
              · simp only [hne, ite_false]
                exact ih _ (nodup_keys_dictInsert g _ nid h)

theorem process_tiles_nodup_keys {α : Type} [DecidableEq α] (G : GridIndex α) :
    ∀ (snapshot g : List (Coord × α)) (done : List Coord),
      (g.map Prod.fst).Nodup → ((process_tiles G snapshot g done).1.map Prod.fst).Nodup := by
  intro snapshot
  induction snapshot with
  | nil => intro g done h; simpa [process_tiles] using h
  | cons hd tl ih =>
      intro g done h
      obtain ⟨coords, current_id⟩ := hd
      rw [process_tiles]
      by_cases hdone : coords ∈ done
      · rw [if_pos hdone]; exact ih g done h
      · rw [if_neg hdone]
        cases hpl : place_neighbors coords (get_positioned_neighbors G current_id) g with
        | mk g' cf =>
            have hg' : (g'.map Prod.fst).Nodup := by
              have := place_neighbors_nodup_keys coords
                (get_positioned_neighbors G current_id) g h
              rwa [hpl] at this
            cases cf with
            | none => exact ih g' (done ++ [coords]) hg'
            | some c0 => exact hg'

theorem process_rings_nodup_keys {α : Type} [DecidableEq α] (G : GridIndex α) :
    ∀ (n : Nat) (g : List (Coord × α)) (done : List Coord),
      (g.map Prod.fst).Nodup → ((process_rings G n g done).1.map Prod.fst).Nodup := by
  intro n
  induction n with
  | zero => intro g done h; simpa [process_rings] using h
  | succ m ih =>
      intro g done h
      rw [process_rings]
      exact ih _ _ (process_tiles_nodup_keys G g g done h)

theorem place_center_neighbors_nodup_keys {α : Type} [DecidableEq α]
    (nbrs : List (Position × Option α)) (g : List (Coord × α))
    (h : (g.map Prod.fst).Nodup) :
    ((place_center_neighbors nbrs g).map Prod.fst).Nodup := by
  induction nbrs generalizing g with
  | nil => simpa [place_center_neighbors] using h
  | cons hd tl ih =>
      obtain ⟨pos, ov⟩ := hd
      cases ov with
      | none => rw [place_center_neighbors, List.foldl_cons]; exact ih g h
      | some nid =>
          rw [place_center_neighbors, List.foldl_cons]
          exact ih _ (nodup_keys_dictInsert g _ nid h)

theorem positioned_neighbors_map_fst_of_six {α : Type} [DecidableEq α] (G : GridIndex α)
    (c : α) (hp : G.isPentagon c = false) (h6 : (neighbors_of G c).length = 6) :
    (get_positioned_neighbors G c).map Prod.fst = position_names := by
  rw [get_positioned_neighbors_eq_base G c hp, assign_positions_map_fst,
    sorted_pairs_length, h6]
  rfl

/-- C4: it is not true that a 3×3 request around a non-pentagon centre
with six distinct neighbours returns exactly 7 populated coordinates —
the ring budget `max(width, height) + 1 = 4` keeps expanding the grid far
beyond the immediate neighbours: on the conflict-free lattice `L00` the
3×3 request populates 91 distinct coordinates. -/
theorem grid33_exactly_seven_cex :
    L00.isPentagon ((0 : Int), (0 : Int)) = false ∧
    (neighbors_of L00 ((0 : Int), (0 : Int))).length = 6 ∧
    (neighbors_of L00 ((0 : Int), (0 : Int))).Nodup ∧
    use_geographic_algorithm L00 ((0 : Int), (0 : Int)) 3 3 = false ∧
    (get_tile_grid L00 ((0 : Int), (0 : Int)) 3 3).map
      (fun r => (r.grid.length, decide ((r.grid.map Prod.fst).Nodup),
        r.pentagon_positions)) = some (91, true, []) ∧
    (91 : Nat) ≠ 7 := by
  refine ⟨by decide, by decide, by decide, by decide, ?_, by decide⟩
  with_unfolding_all rfl

/-- C4 amended: for a non-pentagon centre with six distinct neighbours, a
3×3 request on the primary strategy returns a grid with at least 7
populated coordinates — the centre plus its six neighbours are all
placed, and propagation continues outward — and, provided no pentagon
lies within the propagation reach of 5 positioned-neighbour steps, zero
pentagon coordinates. -/
theorem grid33_at_least_seven_cells {α : Type} [DecidableEq α] (G : GridIndex α) (c : α)
    (res : GridResult α)
    (hp : G.isPentagon c = false)
    (h6 : (neighbors_of G c).length = 6)
    (_hnd : (neighbors_of G c).Nodup)
    (hprim : use_geographic_algorithm G c 3 3 = false)
    (hres : get_tile_grid G c 3 3 = some res)
    (hreach : ∀ v ∈ reach_from G c 5, G.isPentagon v = false) :
    7 ≤ res.grid.length ∧ res.pentagon_positions = [] := by
  rw [get_tile_grid_primary_eq G c 3 3 hprim] at hres
  injection hres with hres
  constructor
  · rw [← hres]
    show 7 ≤ (embed_primary G c 3 3 (dictInsert [] ((0 : Int), (0 : Int)) c)).length
    have hpres : ∀ q : Coord,
        (dictGet (place_center_neighbors (get_positioned_neighbors G c)
          (dictInsert [] ((0 : Int), (0 : Int)) c)) q).isSome →
        q ∈ (embed_primary G c 3 3 (dictInsert [] ((0 : Int), (0 : Int)) c)).map
          Prod.fst := by
      intro q hq
      have h2 := process_rings_isSome G (max 3 3 + 1) _ [((0 : Int), (0 : Int))] q hq
      rcases Option.isSome_iff_exists.mp h2 with ⟨v, hv⟩
      exact mem_keys_of_dictGet_some hv
    have hkeys : ∀ q ∈ ((0 : Int), (0 : Int)) ::
        position_names.map (fun p => ((0 : Int) + (relative_coords_for_even_columns p).1,
          (0 : Int) + (relative_coords_for_even_columns p).2)),
        q ∈ (embed_primary G c 3 3 (dictInsert [] ((0 : Int), (0 : Int)) c)).map
          Prod.fst := by
      intro q hq
      rcases List.mem_cons.mp hq with rfl | hq'
      · exact mem_keys_of_dictGet_some
          (embed_primary_origin G c 3 3 _ (dictGet_insert_self _ _ _))
      · rcases List.mem_map.mp hq' with ⟨p, hpmem, rfl⟩
        have hpfst := positioned_neighbors_map_fst_of_six G c hp h6
        have hpmem2 : p ∈ (get_positioned_neighbors G c).map Prod.fst := by
          rw [hpfst]; exact hpmem
        rcases List.mem_map.mp hpmem2 with ⟨pr, hprmem, hpr1⟩
        have hsome : ∃ a, pr.2 = some a := by
          have hb := get_positioned_neighbors_eq_base G c hp
          rw [hb] at hprmem
          exact assign_positions_snd_isSome _ pr hprmem
        rcases hsome with ⟨a, ha⟩
        have hmem2 : (p, some a) ∈ get_positioned_neighbors G c := by
          have hpr : pr = (p, some a) := by
            rcases pr with ⟨pr1, pr2⟩
            simp only at hpr1 ha
            rw [hpr1, ha]
          rw [← hpr]
          exact hprmem
        exact hpres _ (place_center_neighbors_present _ _ p a hmem2)
    have hnodup7 : (((0 : Int), (0 : Int)) ::
        position_names.map (fun p => ((0 : Int) + (relative_coords_for_even_columns p).1,
          (0 : Int) + (relative_coords_for_even_columns p).2))).Nodup := by decide
    have hnodupkeys : ((embed_primary G c 3 3
        (dictInsert [] ((0 : Int), (0 : Int)) c)).map Prod.fst).Nodup := by
      refine process_rings_nodup_keys G _ _ _ ?_
      refine place_center_neighbors_nodup_keys _ _ ?_
      simp [dictInsert]
    have hlen := (List.subperm_of_subset hnodup7 hkeys).length_le
    simpa using hlen
  · rw [← hres]
    exact primary_pentagon_positions_empty G c 3 3 hreach

/-- C4 amended witness: on the flat lattice `L00` the 3×3 request around
the origin satisfies all hypotheses and returns at least 7 populated
coordinates and no pentagon coordinates. -/
theorem grid33_at_least_seven_cells_witness :
    ∃ res, get_tile_grid L00 ((0 : Int), (0 : Int)) 3 3 = some res ∧
      7 ≤ res.grid.length ∧ res.pentagon_positions = [] := by
  have hs : (get_tile_grid L00 ((0 : Int), (0 : Int)) 3 3).isSome = true := by
    with_unfolding_all rfl
  exact ⟨_, (Option.some_get hs).symm,
    grid33_at_least_seven_cells L00 ((0 : Int), (0 : Int)) _ (by decide) (by decide)
      (by decide) (by decide) (Option.some_get hs).symm (fun v _ => rfl)⟩
